import Mathlib

/-!
Shallow embedding of `gcode_outer_holes_tool.py` (CURA Outer Holes /
Swiss Cheese G-code editor).

Modelling conventions:
* Python floats are idealised as exact rationals.  Because the script can
  produce the IEEE special values (the bounds fold starts from
  `float(inf)` / `float(-inf)`, and `random.uniform` over a degenerate
  range yields `nan`), runtime values are wrapped in `FltQ`, a rational
  extended with `inf`, `ninf` and `nan`, with IEEE-style propagation rules.
* Python raises `ValueError` from `float(...)` on malformed text and
  `ZeroDivisionError` from float division by zero; fallible code therefore
  returns `Except PyErr`.
* The two regular expressions of the script are embedded as recursive
  functions with Python `re.match` semantics (anchored at the start, `.`
  does not match a newline, greedy `.*` prefers the rightmost viable
  split, character classes as written).
* The Mersenne Twister behind `random.seed` / `random.uniform`, and
  `math.cos` / `math.sin`, are not repository code; they are abstracted as
  a `RNG` parameter, so theorems quantified over every `RNG` in particular
  cover the real generator.  `random.seed(seed)` is the state-reset
  `seedFn`, which ignores the ambient generator state.
* The comparison `dist <= radius`, where `dist = dsq ** 0.5`, is decided
  exactly on the squared distance: for `0 ≤ d`, `Real.sqrt d ≤ r` holds
  iff `0 ≤ r ∧ d ≤ r * r` (theorem `fltSqrtLe_correct` below), and the
  special values `inf` / `nan` compare `False` against any float, as in
  Python.
-/

/-- Python exceptions that the script can actually raise while
transforming lines: `float(...)` on malformed text, and float division by
zero. -/
inductive PyErr where
  | valueError
  | zeroDivisionError
  deriving DecidableEq, Repr

/-- A Python float value, idealised: an exact rational, or one of the
IEEE special values produced by the script (positive and negative
infinity, and `nan` from arithmetic on infinities). -/
inductive FltQ where
  | fin (q : ℚ)
  | inf
  | ninf
  | nan
  deriving DecidableEq, Repr

/-- IEEE addition on idealised floats (`inf + -inf = nan`, `nan`
propagates). -/
def fltAdd : FltQ → FltQ → FltQ
  | .nan, _ => .nan
  | _, .nan => .nan
  | .fin a, .fin b => .fin (a + b)
  | .fin _, .inf => .inf
  | .inf, .fin _ => .inf
  | .inf, .inf => .inf
  | .inf, .ninf => .nan
  | .ninf, .inf => .nan
  | .fin _, .ninf => .ninf
  | .ninf, .fin _ => .ninf
  | .ninf, .ninf => .ninf

/-- IEEE negation on idealised floats. -/
def fltNeg : FltQ → FltQ
  | .fin a => .fin (-a)
  | .inf => .ninf
  | .ninf => .inf
  | .nan => .nan

/-- IEEE subtraction on idealised floats. -/
def fltSub (a b : FltQ) : FltQ := fltAdd a (fltNeg b)

/-- IEEE multiplication on idealised floats (`inf * 0 = nan`, signs of
infinities follow the sign of the finite factor). -/
def fltMul : FltQ → FltQ → FltQ
  | .nan, _ => .nan
  | _, .nan => .nan
  | .fin a, .fin b => .fin (a * b)
  | .fin a, .inf => if 0 < a then .inf else if a < 0 then .ninf else .nan
  | .fin a, .ninf => if 0 < a then .ninf else if a < 0 then .inf else .nan
  | .inf, .fin b => if 0 < b then .inf else if b < 0 then .ninf else .nan
  | .ninf, .fin b => if 0 < b then .ninf else if b < 0 then .inf else .nan
  | .inf, .inf => .inf
  | .inf, .ninf => .ninf
  | .ninf, .inf => .ninf
  | .ninf, .ninf => .inf

/-- Python float division: raises `ZeroDivisionError` whenever the
divisor is (finite) zero, otherwise follows IEEE rules (`inf / inf =
nan`, finite over an infinity is zero). -/
def fltDiv (a b : FltQ) : Except PyErr FltQ :=
  match a, b with
  | a, .fin q =>
    if q = 0 then .error .zeroDivisionError
    else
      match a with
      | .fin p => .ok (.fin (p / q))
      | .inf => .ok (if 0 < q then .inf else .ninf)
      | .ninf => .ok (if 0 < q then .ninf else .inf)
      | .nan => .ok .nan
  | .nan, _ => .ok .nan
  | _, .nan => .ok .nan
  | .fin _, .inf => .ok (.fin 0)
  | .fin _, .ninf => .ok (.fin 0)
  | .inf, .inf => .ok .nan
  | .inf, .ninf => .ok .nan
  | .ninf, .inf => .ok .nan
  | .ninf, .ninf => .ok .nan

/-- Python `<` on idealised floats; any comparison against `nan` is
`False`. -/
def fltLt : FltQ → FltQ → Bool
  | .nan, _ => false
  | _, .nan => false
  | .fin a, .fin b => decide (a < b)
  | .fin _, .inf => true
  | .fin _, .ninf => false
  | .inf, _ => false
  | .ninf, .ninf => false
  | .ninf, _ => true

/-- Python `min(a, b)`: returns `b` exactly when `b < a`. -/
def fltMin (a b : FltQ) : FltQ := if fltLt b a then b else a

/-- Python `max(a, b)`: returns `b` exactly when `a < b`. -/
def fltMax (a b : FltQ) : FltQ := if fltLt a b then b else a

/-- Decides `d ** 0.5 <= r` for a squared distance `d` and a finite
radius `r`.  For a finite `d ≥ 0` (the only finite values a sum of
squares can take) this is exactly `Real.sqrt d ≤ r`, see
`fltSqrtLe_correct`; for `inf` and `nan` the Python comparison yields
`False`. -/
def fltSqrtLe : FltQ → ℚ → Bool
  | .fin q, r => decide (0 ≤ r ∧ q ≤ r * r)
  | .inf, _ => false
  | .ninf, _ => false
  | .nan, _ => false

/-- The characters matched by the regex class `[\d\.\-]`. -/
def isNumCh (c : Char) : Bool := c.isDigit || c == '.' || c == '-'

/-- Numeric value of a list of decimal digits (most significant first). -/
def digitsVal (ds : List Char) : ℚ :=
  ds.foldl (fun a c => a * 10 + ((c.toNat : ℚ) - 48)) 0

/-- Value of a fractional digit string (the part after the decimal
point). -/
def fracVal (ds : List Char) : ℚ :=
  ds.foldr (fun c a => (a + ((c.toNat : ℚ) - 48)) / 10) 0

/-- Python `float(s)` restricted to strings over `[\d\.\-]`: an optional
leading minus, then digits with at most one decimal point and at least
one digit.  `none` models `ValueError`. -/
def parseUnsigned (s : List Char) : Option ℚ :=
  let ip := s.takeWhile Char.isDigit
  match s.drop ip.length with
  | [] => if ip.isEmpty then none else some (digitsVal ip)
  | '.' :: rest =>
    if rest.all Char.isDigit && (!ip.isEmpty || !rest.isEmpty) then
      some (digitsVal ip + fracVal rest)
    else none
  | _ => none

/-- Python `float(s)` for captured groups (handles the optional sign). -/
def parseFloatQ : List Char → Option ℚ
  | '-' :: r => (parseUnsigned r).map Neg.neg
  | s => parseUnsigned s

/-- Maximal run of `[\d\.\-]` characters at the head of the input (a
greedy `[\d\.\-]+` capture). -/
def numRun (cs : List Char) : List Char := cs.takeWhile isNumCh

/-- Attempt the tail `([\d\.\-]+) Y([\d\.\-]+)` of the motion regex
right after a chosen `X`.  Both captures are the maximal runs: shortening
the first would leave a `[\d\.\-]` character where the literal space must
match, and after the second capture the rest of the pattern is an
optional group, so the regex engine never backtracks into either. -/
def matchFromX (after : List Char) : Option (List Char × List Char × List Char) :=
  let g1 := numRun after
  if g1.isEmpty then none
  else
    match after.drop g1.length with
    | ' ' :: 'Y' :: rem2 =>
      let g2 := numRun rem2
      if g2.isEmpty then none else some (g1, g2, rem2.drop g2.length)
    | _ => none

/-- The `.*X([\d\.\-]+) Y([\d\.\-]+)` part: the greedy `.*` prefers the
rightmost `X` whose continuation matches, and cannot run past a newline
(Python `.` excludes the newline character). -/
def scanX : List Char → Option (List Char × List Char × List Char)
  | [] => none
  | c :: cs =>
    if c == '\n' then none
    else
      match scanX cs with
      | some r => some r
      | none => if c == 'X' then matchFromX cs else none

/-- The `.*Z([\d\.\-]+)` part of the optional group: rightmost `Z`
followed by at least one `[\d\.\-]` character, not preceded by a newline;
the capture is the maximal run. -/
def scanZ : List Char → Option (List Char)
  | [] => none
  | c :: cs =>
    if c == '\n' then none
    else
      match scanZ cs with
      | some g => some g
      | none =>
        if c == 'Z' then
          let g := numRun cs
          if g.isEmpty then none else some g
        else none

/-- The optional group `(?: .*Z([\d\.\-]+))?`: a literal space, then the
`Z` scan; if nothing matches the group participates as empty. -/
def zPart : List Char → Option (List Char)
  | ' ' :: r => scanZ r
  | _ => none

/-- Structural match of
`re.match(r"^G1 .*X([\d\.\-]+) Y([\d\.\-]+)(?: .*Z([\d\.\-]+))?", line)`:
returns the three captured groups (the third optional) or `none`. -/
def matchMotion (cs : List Char) : Option (List Char × List Char × Option (List Char)) :=
  match cs with
  | 'G' :: '1' :: ' ' :: rest =>
    match scanX rest with
    | some (g1, g2, rem3) => some (g1, g2, zPart rem3)
    | none => none
  | _ => none

/-- The parsed coordinates of one motion line: `x`, `y`, optional `z`. -/
abbrev MoveT := ℚ × ℚ × Option ℚ

/-- Embedding of `parse_move(line)`: match the motion regex, then apply
`float` to the captures in source order (`x`, `y`, then `z` when the
third group participated).  A malformed capture raises `ValueError`;
a structural mismatch returns `None`. -/
def parse_move (line : String) : Except PyErr (Option MoveT) :=
  match matchMotion line.data with
  | none => .ok none
  | some (g1, g2, g3opt) =>
    match parseFloatQ g1 with
    | none => .error .valueError
    | some x =>
      match parseFloatQ g2 with
      | none => .error .valueError
      | some y =>
        match g3opt with
        | none => .ok (some (x, y, none))
        | some g3 =>
          match parseFloatQ g3 with
          | none => .error .valueError
          | some z => .ok (some (x, y, some z))

/-- Embedding of `extrusion_move_re = re.compile(r"^G1 .*E[\d\.\-]+.*")`
applied after the `G1 ` prefix: an `E` followed by a `[\d\.\-]` character,
with no newline before the `E`. -/
def extrusionSearch : List Char → Bool
  | [] => false
  | c :: cs =>
    if c == '\n' then false
    else if c == 'E' && (match cs with | d :: _ => isNumCh d | [] => false) then true
    else extrusionSearch cs

/-- Truthiness of `extrusion_move_re.match(line)`. -/
def extrusion_matches (line : String) : Bool :=
  match line.data with
  | 'G' :: '1' :: ' ' :: rest => extrusionSearch rest
  | _ => false

/-- The running bounds `((min_x, max_x), (min_y, max_y))` of
`calculate_bounds`. -/
abbrev Bounds := (FltQ × FltQ) × (FltQ × FltQ)

/-- One fold step of `calculate_bounds` on a parsed move. -/
def boundsStep (b : Bounds) (m : MoveT) : Bounds :=
  ((fltMin b.1.1 (.fin m.1), fltMax b.1.2 (.fin m.1)),
   (fltMin b.2.1 (.fin m.2.1), fltMax b.2.2 (.fin m.2.1)))

/-- The loop of `calculate_bounds`, threading the running bounds; a
`ValueError` from `parse_move` propagates. -/
def calculate_bounds_from (b : Bounds) : List String → Except PyErr Bounds
  | [] => .ok b
  | l :: ls =>
    match parse_move l with
    | .error e => .error e
    | .ok none => calculate_bounds_from b ls
    | .ok (some m) => calculate_bounds_from (boundsStep b m) ls

/-- Embedding of `calculate_bounds(lines)`: min values start at
positive infinity, max values at negative infinity. -/
def calculate_bounds (lines : List String) : Except PyErr Bounds :=
  calculate_bounds_from ((.inf, .ninf), (.inf, .ninf)) lines

/-- Abstract interface to the Python global pseudo-random source together
with `math.cos` / `math.sin`.  `seedFn` models `random.seed(seed)`: it
produces the post-seeding state from the seed alone, discarding whatever
the ambient state was.  Theorems quantified over every `RNG` cover in
particular the real Mersenne Twister. -/
structure RNG (σ : Type) where
  seedFn : ℤ → σ
  uniform : FltQ → FltQ → σ → FltQ × σ
  cosF : FltQ → FltQ
  sinF : FltQ → FltQ

/-- One generated cutting line: origin point and direction vector. -/
abbrev Cut := (FltQ × FltQ) × (FltQ × FltQ)

/-- The exact rational value of the double `2 * math.pi`. -/
def twoPi : ℚ := 884279719003555 / 140737488355328

/-- The loop of `generate_random_vectors`: per line draw `x`, `y`, then
the angle, in that order, and turn the angle into a direction vector. -/
def genLoop {σ : Type} (R : RNG σ) (bounds : Bounds) : ℕ → σ → List Cut × σ
  | 0, g => ([], g)
  | n + 1, g =>
    let xg := R.uniform bounds.1.1 bounds.1.2 g
    let yg := R.uniform bounds.2.1 bounds.2.2 xg.2
    let ag := R.uniform (.fin 0) (.fin twoPi) yg.2
    let rest := genLoop R bounds n ag.2
    (((xg.1, yg.1), (R.cosF ag.1, R.sinF ag.1)) :: rest.1, rest.2)

/-- Embedding of `generate_random_vectors(bounds, count, seed)`: it first
re-seeds the global source (`random.seed(seed)`), so the ambient state
`_g0` is discarded; Python `range(count)` is empty for negative counts. -/
def generate_random_vectors {σ : Type} (R : RNG σ) (_g0 : σ) (bounds : Bounds)
    (count : ℤ) (seed : ℤ) : List Cut × σ :=
  genLoop R bounds count.toNat (R.seedFn seed)

/-- Embedding of `point_line_distance_2d` up to the final `** 0.5`: the
squared distance from `(px, py)` to the line through `(x0, y0)` with
direction `(dx, dy)`.  The square root is applied at the single use site
through `fltSqrtLe`, which decides `dist <= radius` exactly. -/
def point_line_distance_2d_sq (px py : ℚ) (x0 y0 dx dy : FltQ) : Except PyErr FltQ :=
  match fltDiv (fltAdd (fltMul (fltSub (.fin px) x0) dx) (fltMul (fltSub (.fin py) y0) dy))
      (fltAdd (fltMul dx dx) (fltMul dy dy)) with
  | .error e => .error e
  | .ok t =>
    let nx := fltAdd x0 (fltMul t dx)
    let ny := fltAdd y0 (fltMul t dy)
    .ok (fltAdd (fltMul (fltSub (.fin px) nx) (fltSub (.fin px) nx))
        (fltMul (fltSub (.fin py) ny) (fltSub (.fin py) ny)))

/-- Round a rational to the nearest integer, ties to even (the rounding
of Python float formatting, idealised to exact values). -/
def roundHalfEven (x : ℚ) : ℤ :=
  let f := Int.floor x
  let r := x - f
  if r < 1 / 2 then f
  else if 1 / 2 < r then f + 1
  else if f % 2 = 0 then f else f + 1

/-- Python `f"{x:.1f}"`: one decimal digit, with the sign kept when a
negative value rounds to zero. -/
def fmt1 (x : ℚ) : String :=
  let n := roundHalfEven (x * 10)
  let sign := if n < 0 || (n == 0 && decide (x < 0)) then "-" else ""
  sign ++ toString (n.natAbs / 10) ++ "." ++ toString (n.natAbs % 10)

/-- The replacement comment
`f"; Removed by angled Swiss cheese hole at X{x:.1f} Y{y:.1f}\n"`. -/
def removalComment (x y : ℚ) : String :=
  "; Removed by angled Swiss cheese hole at X" ++ fmt1 x ++ " Y" ++ fmt1 y ++ "\n"

/-- The trailing summary comment
`f"; Total moves removed by angled Swiss cheese holes: {removed}\n"`. -/
def summaryLine (removed : ℕ) : String :=
  "; Total moves removed by angled Swiss cheese holes: " ++ toString removed ++ "\n"

/-- The inner `for origin, direction in lines_to_cut` loop: first cutting
line within `radius` wins (`break`); `False` models the `for ... else`
fall-through. -/
def lineHit (cuts : List Cut) (radius : ℚ) (x y : ℚ) : Except PyErr Bool :=
  match cuts with
  | [] => .ok false
  | cut :: rest =>
    match point_line_distance_2d_sq x y cut.1.1 cut.1.2 cut.2.1 cut.2.2 with
    | .error e => .error e
    | .ok dsq =>
      if fltSqrtLe dsq radius then .ok true else lineHit rest radius x y

/-- The body of the main loop of `inject_angled_holes` for one line:
parse it, test the extrusion pattern, and either substitute the removal
comment (flag `true`) or pass the line through (flag `false`). -/
def processLine (cuts : List Cut) (radius : ℚ) (line : String) :
    Except PyErr (String × Bool) :=
  match parse_move line with
  | .error e => .error e
  | .ok none => .ok (line, false)
  | .ok (some m) =>
    if extrusion_matches line then
      match lineHit cuts radius m.1 m.2.1 with
      | .error e => .error e
      | .ok true => .ok (removalComment m.1 m.2.1, true)
      | .ok false => .ok (line, false)
    else .ok (line, false)

/-- The main loop of `inject_angled_holes`: builds the modified line list
and the `removed` counter. -/
def inject_core (cuts : List Cut) (radius : ℚ) : List String → Except PyErr (List String × ℕ)
  | [] => .ok ([], 0)
  | l :: ls =>
    match processLine cuts radius l with
    | .error e => .error e
    | .ok sb =>
      match inject_core cuts radius ls with
      | .error e => .error e
      | .ok rest => .ok (sb.1 :: rest.1, if sb.2 then rest.2 + 1 else rest.2)

/-- Embedding of `inject_angled_holes(lines, count, radius, seed)`,
threading the ambient global random state `g0`. -/
def inject_angled_holes {σ : Type} (R : RNG σ) (g0 : σ) (lines : List String)
    (count : ℤ) (radius : ℚ) (seed : ℤ) : Except PyErr (List String) :=
  match calculate_bounds lines with
  | .error e => .error e
  | .ok bounds =>
    match inject_core ((generate_random_vectors R g0 bounds count seed).1) radius lines with
    | .error e => .error e
    | .ok res => .ok (res.1 ++ [summaryLine res.2])

/-- A degenerate but perfectly legal deterministic random source (always
returns the lower end of the requested interval, direction `(1, 0)`),
used to instantiate the universally quantified theorems on concrete
inputs. -/
def zeroSource : RNG ℤ where
  seedFn s := s
  uniform a _ g := (a, g + 1)
  cosF _ := .fin 1
  sinF _ := .fin 0

/-- Whether a text line begins with the given character list. -/
def listStartsWith : List Char → List Char → Bool
  | [], _ => true
  | _ :: _, [] => false
  | a :: as, b :: bs => a == b && listStartsWith as bs

/-- The removal-comment marker named by the specification. -/
def marker : String := "; Removed by angled Swiss cheese hole"

/-- Whether an output line begins with the removal-comment marker. -/
def hasMarker (l : String) : Bool := listStartsWith marker.data l.data

/-- Number of lines that begin with the removal-comment marker. -/
def countMarked (ls : List String) : ℕ := ls.countP (fun l => hasMarker l)

/-- The squared-distance comparison of the embedding decides the real
comparison of the source exactly: for a finite squared distance `q`,
`fltSqrtLe (fin q) r` is `(q ** 0.5) <= r` over the reals. -/
theorem fltSqrtLe_correct (q r : ℚ) :
    fltSqrtLe (.fin q) r = true ↔ Real.sqrt (q : ℝ) ≤ (r : ℝ) := by
  rw [Real.sqrt_le_iff, sq]
  simp only [fltSqrtLe, decide_eq_true_eq]
  constructor
  · rintro ⟨h1, h2⟩
    exact ⟨by exact_mod_cast h1, by exact_mod_cast h2⟩
  · rintro ⟨h1, h2⟩
    exact ⟨by exact_mod_cast h1, by exact_mod_cast h2⟩

/-- Enlarging the radius can only turn a miss into a hit, never the
converse. -/
theorem fltSqrtLe_mono {r1 r2 : ℚ} (hr : r1 ≤ r2) {d : FltQ}
    (h : fltSqrtLe d r1 = true) : fltSqrtLe d r2 = true := by
  cases d with
  | fin q =>
    simp only [fltSqrtLe, decide_eq_true_eq] at h ⊢
    obtain ⟨h1, h2⟩ := h
    exact ⟨le_trans h1 hr, by nlinarith⟩
  | inf => simp [fltSqrtLe] at h
  | ninf => simp [fltSqrtLe] at h
  | nan => simp [fltSqrtLe] at h

/-- A prefix check only looks at the first `p.length` characters. -/
theorem listStartsWith_append_left (p : List Char) :
    ∀ (s t : List Char), p.length ≤ s.length →
      listStartsWith p (s ++ t) = listStartsWith p s := by
  induction p with
  | nil => intro s t _; rfl
  | cons a as ih =>
    intro s t hlen
    cases s with
    | nil => simp at hlen
    | cons b bs =>
      simp only [List.cons_append, listStartsWith, List.append_eq]
      rw [ih bs t (by simpa using hlen)]

/-- Every replacement line begins with the removal-comment marker. -/
theorem hasMarker_removalComment (x y : ℚ) : hasMarker (removalComment x y) = true := by
  unfold hasMarker removalComment
  simp only [String.data_append, List.append_assoc]
  rw [listStartsWith_append_left _ _ _ (by decide)]
  decide

/-- The trailing summary line never begins with the removal-comment
marker. -/
theorem hasMarker_summaryLine (n : ℕ) : hasMarker (summaryLine n) = false := by
  unfold hasMarker summaryLine
  simp only [String.data_append, List.append_assoc]
  rw [listStartsWith_append_left _ _ _ (by decide)]
  decide

/-- A processed line is either passed through unchanged (flag `false`) or
substituted by a removal comment (flag `true`). -/
theorem processLine_ok {cuts : List Cut} {r : ℚ} {l s : String} {b : Bool}
    (h : processLine cuts r l = .ok (s, b)) :
    (b = false ∧ s = l) ∨ (b = true ∧ ∃ x y, s = removalComment x y) := by
  cases hp : parse_move l with
  | error e => simp [processLine, hp] at h
  | ok o =>
    cases o with
    | none =>
      simp [processLine, hp] at h
      exact Or.inl ⟨h.2, h.1.symm⟩
    | some m =>
      cases he : extrusion_matches l with
      | false =>
        simp [processLine, hp, he] at h
        exact Or.inl ⟨h.2, h.1.symm⟩
      | true =>
        cases hl : lineHit cuts r m.1 m.2.1 with
        | error e => simp [processLine, hp, he, hl] at h
        | ok hit =>
          cases hit with
          | true =>
            simp [processLine, hp, he, hl] at h
            exact Or.inr ⟨h.2, m.1, m.2.1, h.1.symm⟩
          | false =>
            simp [processLine, hp, he, hl] at h
            exact Or.inl ⟨h.2, h.1.symm⟩

/-- A line that is a move but does not match the extrusion pattern is
passed through unchanged. -/
theorem processLine_not_extrusion {cuts : List Cut} {r : ℚ} {l s : String} {b : Bool}
    (he : extrusion_matches l = false) (h : processLine cuts r l = .ok (s, b)) :
    s = l ∧ b = false := by
  cases hp : parse_move l with
  | error e => simp [processLine, hp] at h
  | ok o =>
    cases o with
    | none =>
      simp [processLine, hp] at h
      exact ⟨h.1.symm, h.2⟩
    | some m =>
      simp [processLine, hp, he] at h
      exact ⟨h.1.symm, h.2⟩

/-- A line on which move parsing yields no match is passed through
unchanged, with no distance ever computed. -/
theorem processLine_no_move {cuts : List Cut} {r : ℚ} {l : String}
    (hp : parse_move l = .ok none) : processLine cuts r l = .ok (l, false) := by
  simp [processLine, hp]

/-- With no cutting lines at all, every line that processes successfully
is passed through unchanged. -/
theorem processLine_nil_cuts {r : ℚ} {l s : String} {b : Bool}
    (h : processLine [] r l = .ok (s, b)) : s = l ∧ b = false := by
  cases hp : parse_move l with
  | error e => simp [processLine, hp] at h
  | ok o =>
    cases o with
    | none =>
      simp [processLine, hp] at h
      exact ⟨h.1.symm, h.2⟩
    | some m =>
      cases he : extrusion_matches l with
      | false =>
        simp [processLine, hp, he] at h
        exact ⟨h.1.symm, h.2⟩
      | true =>
        simp [processLine, hp, he, lineHit] at h
        exact ⟨h.1.symm, h.2⟩

/-- First-match search against the cutting lines: a hit at some radius is
still a hit at any larger radius (it may only move to an earlier cutting
line). -/
theorem lineHit_mono {r1 r2 : ℚ} (hr : r1 ≤ r2) {x y : ℚ} :
    ∀ {cuts : List Cut}, lineHit cuts r1 x y = .ok true → lineHit cuts r2 x y = .ok true := by
  intro cuts
  induction cuts with
  | nil => intro h; simp [lineHit] at h
  | cons cut rest ih =>
    intro h
    cases hd : point_line_distance_2d_sq x y cut.1.1 cut.1.2 cut.2.1 cut.2.2 with
    | error e => simp [lineHit, hd] at h
    | ok dsq =>
      by_cases h1 : fltSqrtLe dsq r1 = true
      · simp [lineHit, hd, fltSqrtLe_mono hr h1]
      · simp only [lineHit, hd, h1, if_false, Bool.false_eq_true] at h
        cases h2 : fltSqrtLe dsq r2 with
        | true => simp [lineHit, hd, h2]
        | false => simpa [lineHit, hd, h2] using ih h

/-- A line substituted at some radius is also substituted at any larger
radius (with the same replacement text, which depends only on the parsed
coordinates). -/
theorem processLine_mono {cuts : List Cut} {r1 r2 : ℚ} (hr : r1 ≤ r2) {l s1 s2 : String}
    {b2 : Bool} (h1 : processLine cuts r1 l = .ok (s1, true))
    (h2 : processLine cuts r2 l = .ok (s2, b2)) : b2 = true := by
  cases hp : parse_move l with
  | error e => simp [processLine, hp] at h1
  | ok o =>
    cases o with
    | none => simp [processLine, hp] at h1
    | some m =>
      cases he : extrusion_matches l with
      | false => simp [processLine, hp, he] at h1
      | true =>
        cases hl : lineHit cuts r1 m.1 m.2.1 with
        | error e => simp [processLine, hp, he, hl] at h1
        | ok hit =>
          cases hit with
          | false => simp [processLine, hp, he, hl] at h1
          | true =>
            have := lineHit_mono hr hl
            simp [processLine, hp, he, this] at h2
            exact h2.2

/-- The main loop is length-preserving on the line list it returns. -/
theorem inject_core_length {cuts : List Cut} {r : ℚ} :
    ∀ {ls mods : List String} {n : ℕ},
      inject_core cuts r ls = .ok (mods, n) → mods.length = ls.length := by
  intro ls
  induction ls with
  | nil =>
    intro mods n h
    simp [inject_core] at h
    simp [← h.1]
  | cons l ls ih =>
    intro mods n h
    cases hpl : processLine cuts r l with
    | error e => simp [inject_core, hpl] at h
    | ok sb =>
      cases hrec : inject_core cuts r ls with
      | error e => simp [inject_core, hpl, hrec] at h
      | ok rest =>
        simp [inject_core, hpl, hrec] at h
        rw [← h.1]
        simp [ih hrec]

/-- Pointwise description of the main loop: the `i`-th output line is the
processing of the `i`-th input line. -/
theorem inject_core_get {cuts : List Cut} {r : ℚ} :
    ∀ {ls mods : List String} {n : ℕ}, inject_core cuts r ls = .ok (mods, n) →
      ∀ (i : ℕ) (l : String), ls[i]? = some l →
        ∃ m b, mods[i]? = some m ∧ processLine cuts r l = .ok (m, b) := by
  intro ls
  induction ls with
  | nil => intro mods n h i l hl; simp at hl
  | cons a ls ih =>
    intro mods n h i l hl
    cases hpl : processLine cuts r a with
    | error e => simp [inject_core, hpl] at h
    | ok sb =>
      cases hrec : inject_core cuts r ls with
      | error e => simp [inject_core, hpl, hrec] at h
      | ok rest =>
        simp [inject_core, hpl, hrec] at h
        rw [← h.1]
        cases i with
        | zero =>
          simp at hl
          exact ⟨sb.1, sb.2, by simp, by rw [← hl]; exact hpl⟩
        | succ j =>
          simp at hl
          obtain ⟨m, b, hm, hpr⟩ := ih hrec j l hl
          exact ⟨m, b, by simpa using hm, hpr⟩

/-- If no input line begins with the removal-comment marker, the number
of marker lines the loop emits is exactly its removal counter. -/
theorem inject_core_count {cuts : List Cut} {r : ℚ} :
    ∀ {ls mods : List String} {n : ℕ}, (∀ l ∈ ls, hasMarker l = false) →
      inject_core cuts r ls = .ok (mods, n) → countMarked mods = n := by
  intro ls
  induction ls with
  | nil =>
    intro mods n _ h
    simp [inject_core] at h
    rw [h.1, ← h.2]
    simp [countMarked]
  | cons l ls ih =>
    intro mods n hclean h
    cases hpl : processLine cuts r l with
    | error e => simp [inject_core, hpl] at h
    | ok sb =>
      cases hrec : inject_core cuts r ls with
      | error e => simp [inject_core, hpl, hrec] at h
      | ok rest =>
        simp [inject_core, hpl, hrec] at h
        rw [← h.1, ← h.2]
        have htail := ih (fun x hx => hclean x (List.mem_cons_of_mem l hx)) hrec
        rcases processLine_ok hpl with ⟨hb, hs⟩ | ⟨hb, x, y, hs⟩
        · have hmk : hasMarker sb.1 = false := hs ▸ hclean l (List.mem_cons_self l ls)
          simp [countMarked, List.countP_cons, hmk, hb]
          exact htail
        · have hmk : hasMarker sb.1 = true := hs ▸ hasMarker_removalComment x y
          simp [countMarked, List.countP_cons, hmk, hb]
          exact htail

/-- With an empty cutting-line list, a successful loop run returns the
input unchanged and counts zero removals. -/
theorem inject_core_nil_cuts {r : ℚ} :
    ∀ {ls mods : List String} {n : ℕ},
      inject_core [] r ls = .ok (mods, n) → mods = ls ∧ n = 0 := by
  intro ls
  induction ls with
  | nil =>
    intro mods n h
    simp [inject_core] at h
    exact ⟨h.1, h.2.symm⟩
  | cons l ls ih =>
    intro mods n h
    cases hpl : processLine [] r l with
    | error e => simp [inject_core, hpl] at h
    | ok sb =>
      cases hrec : inject_core [] r ls with
      | error e => simp [inject_core, hpl, hrec] at h
      | ok rest =>
        simp [inject_core, hpl, hrec] at h
        obtain ⟨hs, hb⟩ := processLine_nil_cuts hpl
        obtain ⟨hm, hn⟩ := ih hrec
        rw [← h.1, ← h.2]
        simp [hs, hb, hm, hn]

/-- If every line fails move parsing, the loop succeeds for every
cutting-line list and radius, passing all lines through: the inner
distance loop is never entered. -/
theorem inject_core_all_none {cuts : List Cut} {r : ℚ} :
    ∀ {ls : List String}, (∀ l ∈ ls, parse_move l = .ok none) →
      inject_core cuts r ls = .ok (ls, 0) := by
  intro ls
  induction ls with
  | nil => intro _; rfl
  | cons l ls ih =>
    intro hp
    have h1 : processLine cuts r l = .ok (l, false) :=
      processLine_no_move (hp l (List.mem_cons_self l ls))
    have h2 := ih (fun x hx => hp x (List.mem_cons_of_mem l hx))
    simp [inject_core, h1, h2]

/-- Monotonicity of the removal counter in the radius, for a fixed
cutting-line list. -/
theorem inject_core_mono {cuts : List Cut} {r1 r2 : ℚ} (hr : r1 ≤ r2) :
    ∀ {ls m1 m2 : List String} {n1 n2 : ℕ},
      inject_core cuts r1 ls = .ok (m1, n1) → inject_core cuts r2 ls = .ok (m2, n2) →
        n1 ≤ n2 := by
  intro ls
  induction ls with
  | nil =>
    intro m1 m2 n1 n2 h1 h2
    simp [inject_core] at h1 h2
    omega
  | cons l ls ih =>
    intro m1 m2 n1 n2 h1 h2
    cases hpl1 : processLine cuts r1 l with
    | error e => simp [inject_core, hpl1] at h1
    | ok sb1 =>
      cases hrec1 : inject_core cuts r1 ls with
      | error e => simp [inject_core, hpl1, hrec1] at h1
      | ok rest1 =>
        cases hpl2 : processLine cuts r2 l with
        | error e => simp [inject_core, hpl2] at h2
        | ok sb2 =>
          cases hrec2 : inject_core cuts r2 ls with
          | error e => simp [inject_core, hpl2, hrec2] at h2
          | ok rest2 =>
            simp [inject_core, hpl1, hrec1] at h1
            simp [inject_core, hpl2, hrec2] at h2
            have htail : rest1.2 ≤ rest2.2 := ih hrec1 hrec2
            rw [← h1.2, ← h2.2]
            cases hb1 : sb1.2 with
            | false =>
              cases hb2 : sb2.2 <;> simp <;> omega
            | true =>
              have hb2 : sb2.2 = true := by
                have hpl1e : processLine cuts r1 l = .ok (sb1.1, sb1.2) := hpl1
                rw [hb1] at hpl1e
                exact processLine_mono hr hpl1e hpl2
              simp [hb2]
              omega

/-- The bounds fold leaves its accumulator untouched on lines that fail
move parsing. -/
theorem calculate_bounds_from_all_none {b : Bounds} :
    ∀ {ls : List String}, (∀ l ∈ ls, parse_move l = .ok none) →
      calculate_bounds_from b ls = .ok b := by
  intro ls
  induction ls with
  | nil => intro _; rfl
  | cons l ls ih =>
    intro hp
    have h1 : parse_move l = .ok none := hp l (List.mem_cons_self l ls)
    have h2 := ih (fun x hx => hp x (List.mem_cons_of_mem l hx))
    simp [calculate_bounds_from, h1, h2]

/-- Successful runs of the injector decompose into a bounds computation,
a loop run over the generated cutting lines, and the appended summary. -/
theorem inject_shape {σ : Type} {R : RNG σ} {g : σ} {ls : List String} {c : ℤ} {r : ℚ}
    {s : ℤ} {out : List String} (h : inject_angled_holes R g ls c r s = .ok out) :
    ∃ bounds mods n, calculate_bounds ls = .ok bounds ∧
      inject_core ((generate_random_vectors R g bounds c s).1) r ls = .ok (mods, n) ∧
      out = mods ++ [summaryLine n] := by
  cases hb : calculate_bounds ls with
  | error e => simp [inject_angled_holes, hb] at h
  | ok bounds =>
    cases hc : inject_core ((generate_random_vectors R g bounds c s).1) r ls with
    | error e => simp [inject_angled_holes, hb, hc] at h
    | ok res =>
      refine ⟨bounds, res.1, res.2, rfl, hc, ?_⟩
      simp [inject_angled_holes, hb, hc] at h
      exact h.symm

/-- C1: Determinism.  For a fixed input tuple `(lines, count, radius,
seed)` the Hole Injector is a function of that tuple alone: because
`generate_random_vectors` re-seeds the pseudo-random source at the start
of cutting-line generation, the ambient generator state (`g0` versus
`g1`) has no influence, so two runs produce identical output.  The
statement is quantified over every random source `R`, hence covers the
real Mersenne Twister. -/
theorem inject_angled_holes_deterministic {σ : Type} (R : RNG σ) (g0 g1 : σ)
    (ls : List String) (c : ℤ) (r : ℚ) (s : ℤ) :
    inject_angled_holes R g0 ls c r s = inject_angled_holes R g1 ls c r s := rfl

/-- C2: Length invariant.  Whenever the Hole Injector returns an output,
its length is the input length plus one, and every position below the
input length holds either the original line or a removal comment
substituted in place. -/
theorem inject_angled_holes_length_invariant {σ : Type} {R : RNG σ} {g : σ}
    {ls : List String} {c : ℤ} {r : ℚ} {s : ℤ} {out : List String}
    (h : inject_angled_holes R g ls c r s = .ok out) :
    out.length = ls.length + 1 ∧
      ∀ i, i < ls.length →
        out[i]? = ls[i]? ∨ ∃ x y, out[i]? = some (removalComment x y) := by
  obtain ⟨bounds, mods, n, hb, hc, hout⟩ := inject_shape h
  have hlen := inject_core_length hc
  subst hout
  refine ⟨by simp [hlen], ?_⟩
  intro i hi
  have hil : i < mods.length := by omega
  rw [List.getElem?_append_left hil]
  have hl : ls[i]? = some ls[i] := List.getElem?_eq_getElem hi
  obtain ⟨m, b, hm, hpr⟩ := inject_core_get hc i ls[i] hl
  rcases processLine_ok hpr with ⟨_, hs⟩ | ⟨_, x, y, hs⟩
  · exact Or.inl (by rw [hm, hs, hl])
  · exact Or.inr ⟨x, y, by rw [hm, hs]⟩

/-- C2 witness: a concrete run in which one line is substituted. -/
theorem inject_angled_holes_length_invariant_witness :
    ([removalComment 10 10, summaryLine 1] : List String).length =
      (["G1 X10 Y10 E1\n"] : List String).length + 1 :=
  (@inject_angled_holes_length_invariant ℤ zeroSource 0 ["G1 X10 Y10 E1\n"] 1 1 42
    [removalComment 10 10, summaryLine 1] (by with_unfolding_all rfl)).1

/-- C8: Zero-count no-op.  With `count = 0` no cutting lines are
generated, and every returning run yields the input unchanged followed by
the summary line reporting `0` removed. -/
theorem zero_count_noop {σ : Type} {R : RNG σ} {g : σ} (bounds : Bounds) (s' : ℤ)
    {ls : List String} {r : ℚ} {s : ℤ} {out : List String}
    (h : inject_angled_holes R g ls 0 r s = .ok out) :
    (generate_random_vectors R g bounds 0 s').1 = [] ∧ out = ls ++ [summaryLine 0] := by
  refine ⟨rfl, ?_⟩
  obtain ⟨b2, mods, n, hb, hc, hout⟩ := inject_shape h
  have hnil : (generate_random_vectors R g b2 0 s).1 = [] := rfl
  rw [hnil] at hc
  obtain ⟨hm, hn⟩ := inject_core_nil_cuts hc
  rw [hout, hm, hn]

/-- C8 witness: a concrete zero-count run on a line that would otherwise
qualify for removal. -/
theorem zero_count_noop_witness :
    (generate_random_vectors zeroSource 0 ((.fin 0, .fin 1), (.fin 0, .fin 1)) 0 9).1 = [] ∧
      (["G1 X1 Y2 E3\n", summaryLine 0] : List String) = ["G1 X1 Y2 E3\n"] ++ [summaryLine 0] :=
  @zero_count_noop ℤ zeroSource 0 ((.fin 0, .fin 1), (.fin 0, .fin 1)) 9 ["G1 X1 Y2 E3\n"] 1 7
    ["G1 X1 Y2 E3\n", summaryLine 0] (by with_unfolding_all rfl)

/-- C9: Concrete scenario.  For the input line `G1 X10.0 Y10.0 E0.05\n`
against a cutting line with origin `(10.0, 10.0)` and direction
`(1.0, 0.0)` at radius `1.0`: the computed squared perpendicular distance
is `0` (so the distance is `0`), the comparison `0 <= radius` holds, and
the line is replaced by exactly the removal comment of the claim. -/
theorem concrete_hit_scenario :
    point_line_distance_2d_sq 10 10 (.fin 10) (.fin 10) (.fin 1) (.fin 0) = .ok (.fin 0) ∧
      fltSqrtLe (.fin 0) 1 = true ∧
      processLine [((.fin 10, .fin 10), (.fin 1, .fin 0))] 1 "G1 X10.0 Y10.0 E0.05\n" =
        .ok ("; Removed by angled Swiss cheese hole at X10.0 Y10.0\n", true) :=
  ⟨by with_unfolding_all rfl, by with_unfolding_all rfl, by with_unfolding_all rfl⟩

/-- C10: Graceful degenerate-bounds behaviour.  If no input line parses
as a move, `calculate_bounds` returns the degenerate
`((inf, -inf), (inf, -inf))` box, and the injector still returns normally
for every count, radius and seed: no line qualifies, no distance is ever
computed (the per-line loop short-circuits before the cutting-line loop),
and the output is the input followed by a `0 removed` summary. -/
theorem degenerate_bounds_graceful {σ : Type} (R : RNG σ) (g : σ) {ls : List String}
    (hp : ∀ l ∈ ls, parse_move l = .ok none) (c : ℤ) (r : ℚ) (s : ℤ) :
    calculate_bounds ls = .ok ((.inf, .ninf), (.inf, .ninf)) ∧
      inject_angled_holes R g ls c r s = .ok (ls ++ [summaryLine 0]) := by
  have hb : calculate_bounds ls = .ok ((.inf, .ninf), (.inf, .ninf)) :=
    calculate_bounds_from_all_none hp
  refine ⟨hb, ?_⟩
  have hc :=
    @inject_core_all_none
      ((generate_random_vectors R g ((.inf, .ninf), (.inf, .ninf)) c s).1) r ls hp
  simp [inject_angled_holes, hb, hc]

/-- C10 witness: a concrete move-free input processed with nonzero count
and radius. -/
theorem degenerate_bounds_graceful_witness :
    calculate_bounds ["; hello\n", "M104 S0\n"] = .ok ((.inf, .ninf), (.inf, .ninf)) ∧
      inject_angled_holes zeroSource 0 ["; hello\n", "M104 S0\n"] 2 1 42 =
        .ok (["; hello\n", "M104 S0\n"] ++ [summaryLine 0]) :=
  @degenerate_bounds_graceful ℤ zeroSource 0 ["; hello\n", "M104 S0\n"]
    (List.forall_mem_cons.mpr ⟨by with_unfolding_all rfl,
      List.forall_mem_cons.mpr ⟨by with_unfolding_all rfl, by simp⟩⟩) 2 1 42

/-- C4: Non-extrusion preservation.  A line that parses as a move but
does not match the extrusion pattern is never replaced: it appears
unchanged at its original position, regardless of its distance to any
cutting line. -/
theorem non_extrusion_move_preserved {σ : Type} {R : RNG σ} {g : σ}
    {ls : List String} {c : ℤ} {r : ℚ} {s : ℤ} {out : List String}
    (h : inject_angled_holes R g ls c r s = .ok out) (i : ℕ) {l : String}
    (hl : ls[i]? = some l) (_hp : ∃ m, parse_move l = .ok (some m))
    (he : extrusion_matches l = false) : out[i]? = some l := by
  obtain ⟨bounds, mods, n, hb, hc, hout⟩ := inject_shape h
  have hlen := inject_core_length hc
  subst hout
  have hi : i < ls.length := by
    by_contra hge
    rw [List.getElem?_eq_none (by omega)] at hl
    cases hl
  have hil : i < mods.length := by omega
  rw [List.getElem?_append_left hil]
  obtain ⟨m, b, hm, hpr⟩ := inject_core_get hc i l hl
  obtain ⟨hs, _⟩ := processLine_not_extrusion he hpr
  rw [hm, hs]

/-- C4 witness: a move without an `E` parameter survives even though the
generated cutting line passes exactly through its position. -/
theorem non_extrusion_move_preserved_witness :
    (["G1 X5 Y5\n", summaryLine 0] : List String)[0]? = some "G1 X5 Y5\n" :=
  @non_extrusion_move_preserved ℤ zeroSource 0 ["G1 X5 Y5\n"] 1 1 3
    ["G1 X5 Y5\n", summaryLine 0] (by with_unfolding_all rfl) 0 "G1 X5 Y5\n"
    (by with_unfolding_all rfl) ⟨(5, 5, none), by with_unfolding_all rfl⟩
    (by with_unfolding_all rfl)

/-- C7: Non-move preservation.  A line on which move parsing yields no
match is never replaced: it appears unchanged at its original position in
the output. -/
theorem non_move_preserved {σ : Type} {R : RNG σ} {g : σ}
    {ls : List String} {c : ℤ} {r : ℚ} {s : ℤ} {out : List String}
    (h : inject_angled_holes R g ls c r s = .ok out) (i : ℕ) {l : String}
    (hl : ls[i]? = some l) (hp : parse_move l = .ok none) : out[i]? = some l := by
  obtain ⟨bounds, mods, n, hb, hc, hout⟩ := inject_shape h
  have hlen := inject_core_length hc
  subst hout
  have hi : i < ls.length := by
    by_contra hge
    rw [List.getElem?_eq_none (by omega)] at hl
    cases hl
  have hil : i < mods.length := by omega
  rw [List.getElem?_append_left hil]
  obtain ⟨m, b, hm, hpr⟩ := inject_core_get hc i l hl
  have h2 : (Except.ok (l, false) : Except PyErr (String × Bool)) = .ok (m, b) :=
    (processLine_no_move hp).symm.trans hpr
  simp at h2
  rw [hm, ← h2.1]

/-- C7 witness: a comment line survives a run with a nonzero hole
count. -/
theorem non_move_preserved_witness :
    (["; comment\n", summaryLine 0] : List String)[0]? = some "; comment\n" :=
  @non_move_preserved ℤ zeroSource 0 ["; comment\n"] 1 1 3
    ["; comment\n", summaryLine 0] (by with_unfolding_all rfl) 0 "; comment\n"
    (by with_unfolding_all rfl) (by with_unfolding_all rfl)

/-- C6: Radius monotonicity.  For fixed `(lines, count, seed)` the
cutting lines do not depend on the radius, so for radii `r1 ≤ r2` the
removal count reported in the trailing summary of the `r2` run is at
least that of the `r1` run. -/
theorem removal_count_radius_mono {σ : Type} {R : RNG σ} {g : σ} {ls : List String}
    {c : ℤ} {s : ℤ} {r1 r2 : ℚ} (hr : r1 ≤ r2) {out1 out2 : List String}
    (h1 : inject_angled_holes R g ls c r1 s = .ok out1)
    (h2 : inject_angled_holes R g ls c r2 s = .ok out2) :
    ∃ n1 n2, out1.getLast? = some (summaryLine n1) ∧
      out2.getLast? = some (summaryLine n2) ∧ n1 ≤ n2 := by
  obtain ⟨b1, m1, n1, hb1, hc1, ho1⟩ := inject_shape h1
  obtain ⟨b2, m2, n2, hb2, hc2, ho2⟩ := inject_shape h2
  have hbeq : b1 = b2 := by
    have := hb1.symm.trans hb2
    injection this
  subst hbeq
  refine ⟨n1, n2, ?_, ?_, ?_⟩
  · rw [ho1]
    exact List.getLast?_concat _
  · rw [ho2]
    exact List.getLast?_concat _
  · exact inject_core_mono hr hc1 hc2

/-- C6 witness: growing the radius from 1 to 5 turns one removal into
two on a two-line input. -/
theorem removal_count_radius_mono_witness :
    ∃ n1 n2,
      ([removalComment 0 0, "G1 X4 Y4 E1\n", summaryLine 1] : List String).getLast? =
        some (summaryLine n1) ∧
      ([removalComment 0 0, removalComment 4 4, summaryLine 2] : List String).getLast? =
        some (summaryLine n2) ∧ n1 ≤ n2 :=
  @removal_count_radius_mono ℤ zeroSource 0 ["G1 X0 Y0 E1\n", "G1 X4 Y4 E1\n"] 1 42 1 5
    (by norm_num) [removalComment 0 0, "G1 X4 Y4 E1\n", summaryLine 1]
    [removalComment 0 0, removalComment 4 4, summaryLine 2]
    (by with_unfolding_all rfl) (by with_unfolding_all rfl)

/-- C3 counterexample: the claim literally quantifies over every input,
but an input line that itself begins with the removal-comment marker is
passed through unchanged (it is not a `G1` move) and inflates the count
of marker lines: here the summary integer is `0` while one output line
begins with the marker. -/
theorem summary_marker_count_cex :
    inject_angled_holes zeroSource 0 ["; Removed by angled Swiss cheese hole X\n"] 0 1 0 =
      .ok ["; Removed by angled Swiss cheese hole X\n", summaryLine 0] ∧
      (["; Removed by angled Swiss cheese hole X\n", summaryLine 0] : List String).getLast? =
        some (summaryLine 0) ∧
      countMarked ["; Removed by angled Swiss cheese hole X\n", summaryLine 0] = 1 ∧
      (0 : ℕ) ≠ 1 :=
  ⟨by with_unfolding_all rfl, by with_unfolding_all rfl, by with_unfolding_all rfl,
    by decide⟩

/-- C3 amended: Removal-count consistency for inputs in which no line
already begins with the removal-comment marker (in particular all real
G-code): the integer in the trailing summary line equals the number of
output lines that begin with the marker. -/
theorem summary_count_eq_marked_clean {σ : Type} {R : RNG σ} {g : σ} {ls : List String}
    {c : ℤ} {r : ℚ} {s : ℤ} {out : List String}
    (h : inject_angled_holes R g ls c r s = .ok out)
    (hclean : ∀ l ∈ ls, hasMarker l = false) :
    ∃ n, out.getLast? = some (summaryLine n) ∧ countMarked out = n := by
  obtain ⟨bounds, mods, n, hb, hc, hout⟩ := inject_shape h
  refine ⟨n, ?_, ?_⟩
  · rw [hout]
    exact List.getLast?_concat _
  · rw [hout]
    have hm := inject_core_count hclean hc
    simp only [countMarked, List.countP_append] at hm ⊢
    simp [List.countP_cons, hasMarker_summaryLine, hm]

/-- C3 amended witness: a clean input with one substituted line. -/
theorem summary_count_eq_marked_clean_witness :
    ∃ n, ([removalComment 10 10, summaryLine 1] : List String).getLast? =
        some (summaryLine n) ∧
      countMarked [removalComment 10 10, summaryLine 1] = n :=
  @summary_count_eq_marked_clean ℤ zeroSource 0 ["G1 X10 Y10 E1\n"] 1 1 42
    [removalComment 10 10, summaryLine 1] (by with_unfolding_all rfl)
    (List.forall_mem_cons.mpr ⟨by with_unfolding_all rfl, by simp⟩)

/-- C5 counterexample: `parse_move` is not exception-free.  The line
`G1 X1.2.3 Y4\n` matches the motion pattern with the malformed capture
`1.2.3`, on which `float` raises `ValueError`; the error propagates out
of the Hole Injector instead of the line being treated as
non-matching. -/
theorem parse_move_value_error_cex :
    parse_move "G1 X1.2.3 Y4\n" = .error .valueError ∧
      inject_angled_holes zeroSource 0 ["G1 X1.2.3 Y4\n"] 20 1 42 = .error .valueError :=
  ⟨by with_unfolding_all rfl, by with_unfolding_all rfl⟩

/-- C5 amended: for every input line, `parse_move` either returns
coordinates, or returns no-match, or raises `ValueError` - and the error
case arises only on lines that structurally match the motion pattern
(with some malformed numeric capture); it is not caught anywhere. -/
theorem parse_move_trichotomy (l : String) :
    parse_move l = .ok none ∨ (∃ m, parse_move l = .ok (some m)) ∨
      (parse_move l = .error .valueError ∧ (matchMotion l.data).isSome = true) := by
  cases hm : matchMotion l.data with
  | none => exact Or.inl (by simp [parse_move, hm])
  | some g =>
    obtain ⟨g1, g2, g3o⟩ := g
    cases hx : parseFloatQ g1 with
    | none => exact Or.inr (Or.inr ⟨by simp [parse_move, hm, hx], by simp [hm]⟩)
    | some x =>
      cases hy : parseFloatQ g2 with
      | none => exact Or.inr (Or.inr ⟨by simp [parse_move, hm, hx, hy], by simp [hm]⟩)
      | some y =>
        cases g3o with
        | none => exact Or.inr (Or.inl ⟨(x, y, none), by simp [parse_move, hm, hx, hy]⟩)
        | some g3 =>
          cases hz : parseFloatQ g3 with
          | none =>
            exact Or.inr (Or.inr ⟨by simp [parse_move, hm, hx, hy, hz], by simp [hm]⟩)
          | some z =>
            exact Or.inr (Or.inl ⟨(x, y, some z), by simp [parse_move, hm, hx, hy, hz]⟩)
